import Mathlib

/-!
# Verification of the EmptyBye cascading empty-directory reclamation core

Shallow embedding of `src/emptybye/emptybye.py`.

The filesystem is modelled as a finite association list from absolute,
canonical paths (lists of name components) to nodes.  A node is a regular
file, a directory carrying a readability flag (scandir on an unreadable
directory raises PermissionError), or a symbolic link storing its target
path.  Unbounded recursion and unbounded loops of the Python source are
modelled with explicit fuel; a fuel-out result models divergence of the
corresponding Python call.
-/

namespace EmptyBye

/-- An absolute filesystem path, as its list of name components
(the path separator structure of the Python strings). -/
abbrev Path := List String

/-- A filesystem node: a regular file (of any size, sizes are irrelevant to
scandir-based emptiness), a directory with its readability, or a symbolic
link with its target path. -/
inductive Node where
  | file
  | dir (readable : Bool)
  | symlink (target : Path)
deriving DecidableEq

/-- A finite filesystem: association list from canonical paths to nodes. -/
abbrev FS := List (Path × Node)

/-- Look a path up in the filesystem (first matching entry). -/
def lookupFS (fs : FS) (p : Path) : Option Node :=
  match fs with
  | [] => none
  | (q, n) :: rest => if q = p then some n else lookupFS rest p

/-- The immediate child paths of `p`: the keys of `fs` directly below `p`.
This is what `os.scandir(p)` lists (hidden entries included). -/
def childPaths (fs : FS) (p : Path) : List Path :=
  fs.filterMap fun qn => if qn.1.dropLast = p ∧ qn.1 ≠ [] then some qn.1 else none

/-- Delete every entry keyed `p` from the filesystem. -/
def removeKey (fs : FS) (p : Path) : FS :=
  fs.filter fun qn => qn.1 ≠ p

/-- Resolve a chain of symbolic links, with fuel modelling the OS
`SYMLOOP_MAX` bound; `none` models an `ELOOP` failure.  A missing path
resolves to itself (existence is checked separately by callers). -/
def resolve (fs : FS) : Nat → Path → Option Path
  | 0, _ => none
  | fuel + 1, p =>
    match lookupFS fs p with
    | some (.symlink t) => resolve fs fuel t
    | _ => some p

/-- `entry.is_symlink()` of the scandir entry at path `p`. -/
def isSymlinkB (fs : FS) (p : Path) : Bool :=
  match lookupFS fs p with
  | some (.symlink _) => true
  | _ => false

/-- Whether `p` is itself a directory node (no link following). -/
def isRealDirB (fs : FS) (p : Path) : Bool :=
  match lookupFS fs p with
  | some (.dir _) => true
  | _ => false

/-- `entry.is_dir(follow_symlinks=True)` / `os.path.isdir`: resolve links,
then test for a directory; a resolution failure yields `false`. -/
def isDirR (fs : FS) (p : Path) : Bool :=
  match resolve fs 40 p with
  | some q => isRealDirB fs q
  | none => false

/-- The entry loop of `is_directory_empty`, abstracted over the recursive
check applied to symlinked subdirectories.  Mirrors the Python `for` loop:
a non-symlink entry (or, with `follow = false`, any entry) returns `False`
at once; a symlink resolving to a directory is recursively checked, and if
non-empty returns `False`; any other symlink is skipped; an exhausted
iterator returns `True`. -/
def scanEntriesWith (check : Path → Option Bool) (fs : FS) (follow : Bool) :
    List Path → Option Bool
  | [] => some true
  | c :: rest =>
    if !follow || !(isSymlinkB fs c) then some false
    else if isDirR fs c then
      match check c with
      | none => none
      | some true => scanEntriesWith check fs follow rest
      | some false => some false
    else scanEntriesWith check fs follow rest

/-- `is_directory_empty(path, follow_symlinks)` with explicit recursion fuel;
`none` models divergence of the unbounded Python recursion.  `scandir`
resolves `p` through symlinks; a resolution failure, a missing or
non-directory target (OSError) and an unreadable directory (PermissionError)
all make the function return `False`. -/
def isDirectoryEmptyF (fs : FS) (follow : Bool) : Nat → Path → Option Bool
  | 0, _ => none
  | fuel + 1, p =>
    match resolve fs 40 p with
    | none => some false
    | some q =>
      match lookupFS fs q with
      | some (.dir true) =>
          scanEntriesWith (isDirectoryEmptyF fs follow fuel) fs follow (childPaths fs q)
      | _ => some false

/-- `os.rmdir(p)`: succeeds exactly on an existing directory node with no
entries at all; `none` models the raised `OSError`/`PermissionError`
(rmdir does not follow symlinks and fails on any non-empty directory). -/
def rmdirFS (fs : FS) (p : Path) : Option FS :=
  match lookupFS fs p with
  | some (.dir _) => if childPaths fs p = [] then some (removeKey fs p) else none
  | _ => none

/-- Add a path to the worklist unless already present (Python `set.add`). -/
def insertTP (p : Path) (tp : List Path) : List Path :=
  if p ∈ tp then tp else p :: tp

/-- `sorted(to_process, key=get_directory_depth, reverse=True)[0]`: an element
of maximal depth (component count); ties are broken by list position, one
deterministic refinement of Python's unspecified set iteration order. -/
def chooseDeepest (x : Path) (xs : List Path) : Path :=
  xs.foldl (fun best p => if p.length > best.length then p else best) x

/-- After recording a removal of `d`, consider its parent: `dirname` drops the
last component, and the parent is enqueued when it is (still) a directory and
has not been removed in this run. -/
def enqueueParent (fs : FS) (d : Path) (removed rest : List Path) : List Path :=
  if isDirR fs d.dropLast ∧ d.dropLast ∉ removed then insertTP d.dropLast rest else rest

/-- Outcome of the `remove_empty_dirs` worklist loop.  `checkDiverged` marks a
run in which the unbounded recursive emptiness check diverged (the fuel of the
embedded check ran out); `outOfFuel` marks exhaustion of the loop fuel itself
and is proved unreachable for a sufficient bound. -/
inductive LoopOut where
  | ok (count : Nat) (removed : List Path) (fs : FS)
  | checkDiverged
  | outOfFuel
deriving DecidableEq

/-- The `while to_process:` loop of `remove_empty_dirs`.  Each iteration pops
a deepest path; an already-removed path is skipped; otherwise emptiness is
re-verified and, when `Empty`, the directory is removed (unless `dry` is set,
in which case the filesystem is untouched), recorded, counted, and its parent
considered; a removal error skips the directory. -/
def reclaimLoop (checkFuel : Nat) (dry follow : Bool) :
    Nat → FS → List Path → List Path → Nat → LoopOut
  | 0, _, _, _, _ => .outOfFuel
  | fuel + 1, fs, tp, removed, count =>
    match tp with
    | [] => .ok count removed fs
    | x :: xs =>
      if chooseDeepest x xs ∈ removed then
        reclaimLoop checkFuel dry follow fuel fs ((x :: xs).erase (chooseDeepest x xs))
          removed count
      else
        match isDirectoryEmptyF fs follow checkFuel (chooseDeepest x xs) with
        | none => .checkDiverged
        | some false =>
            reclaimLoop checkFuel dry follow fuel fs ((x :: xs).erase (chooseDeepest x xs))
              removed count
        | some true =>
          if dry then
            reclaimLoop checkFuel dry follow fuel fs
              (enqueueParent fs (chooseDeepest x xs) (chooseDeepest x xs :: removed)
                ((x :: xs).erase (chooseDeepest x xs)))
              (chooseDeepest x xs :: removed) (count + 1)
          else
            match rmdirFS fs (chooseDeepest x xs) with
            | none =>
                reclaimLoop checkFuel dry follow fuel fs
                  ((x :: xs).erase (chooseDeepest x xs)) removed count
            | some fs' =>
                reclaimLoop checkFuel dry follow fuel fs'
                  (enqueueParent fs' (chooseDeepest x xs) (chooseDeepest x xs :: removed)
                    ((x :: xs).erase (chooseDeepest x xs)))
                  (chooseDeepest x xs :: removed) (count + 1)

/-- `to_process = set(empty_dirs)`: deduplicate the candidate list. -/
def initTP (cands : List Path) : List Path :=
  cands.foldl (fun tp p => insertTP p tp) []

/-- The subdirectories `os.walk` descends into from `top`: entries that are
directories after link resolution and, when `followlinks` is off, are not
themselves symlinks.  With `followlinks` on, descent targets are recorded by
their resolved (canonical) path. -/
def walkInto (fs : FS) (follow : Bool) (top : Path) : List Path :=
  (childPaths fs top).filterMap fun c =>
    if follow then
      match resolve fs 40 c with
      | some q => if isRealDirB fs q then some q else none
      | none => none
    else
      if isRealDirB fs c then some c else none

/-- Walk a list of subtrees with the given walker, concatenating the visited
directories; a diverging subtree walk diverges. -/
def walkKidsWith (w : Path → Option (List Path)) : List Path → Option (List Path)
  | [] => some []
  | c :: rest =>
    match w c, walkKidsWith w rest with
    | some l, some r => some (l ++ r)
    | _, _ => none

/-- `os.walk(top, topdown=False, followlinks=follow)` restricted to the
visited `dirpath`s, in bottom-up yield order, with fuel for the unbounded
mutual descent.  A directory whose listing fails (missing, non-directory or
unreadable) yields nothing at all (`onerror=None`). -/
def walkB (fs : FS) (follow : Bool) : Nat → Path → Option (List Path)
  | 0, _ => none
  | fuel + 1, top =>
    match lookupFS fs top with
    | some (.dir true) =>
      match walkKidsWith (walkB fs follow fuel) (walkInto fs follow top) with
      | some kids => some (kids ++ [top])
      | none => none
    | _ => some []

/-- Insert into a by-depth descending sorted list. -/
def insDepth (p : Path) : List Path → List Path
  | [] => [p]
  | q :: rest => if q.length > p.length then q :: insDepth p rest else p :: q :: rest

/-- `sorted(empty_dirs, key=get_directory_depth, reverse=True)`. -/
def sortByDepthDesc (l : List Path) : List Path :=
  l.foldr insDepth []

/-- The collection filter of `find_empty_dirs`: keep every visited `dirpath`
other than the root whose emptiness check answers `Empty`; a diverging check
diverges the scan. -/
def collectEmptyWith (check : Path → Option Bool) (root : Path) :
    List Path → Option (List Path)
  | [] => some []
  | p :: rest =>
    if p = root then collectEmptyWith check root rest
    else
      match check p with
      | none => none
      | some true => (collectEmptyWith check root rest).map (p :: ·)
      | some false => collectEmptyWith check root rest

/-- `find_empty_dirs(root_path, follow_symlinks)`: walk the tree bottom-up,
keep the empty directories other than the root, and sort deepest first. -/
def findEmptyDirs (walkFuel checkFuel : Nat) (fs : FS) (root : Path) (follow : Bool) :
    Option (List Path) :=
  match walkB fs follow walkFuel root with
  | none => none
  | some visited =>
    match collectEmptyWith (isDirectoryEmptyF fs follow checkFuel) root visited with
    | none => none
    | some raw => some (sortByDepthDesc raw)

/-- Value of the no-follow emptiness check: `Empty` exactly on a readable
directory (after resolving the argument path) with no entries at all. -/
def emptyNowB (fs : FS) (p : Path) : Bool :=
  match resolve fs 40 p with
  | none => false
  | some q =>
    match lookupFS fs q with
    | some (.dir true) => childPaths fs q = []
    | _ => false

/-- All prefixes (ancestor paths) of the members of a list. -/
def prefixClosure (l : List Path) : Finset Path :=
  l.foldr (fun p acc => p.inits.toFinset ∪ acc) ∅

/-- Sufficient fuel for the worklist loop started on candidate list `cands`. -/
def loopBound (cands : List Path) : Nat :=
  (initTP cands).length + 2 * (prefixClosure (initTP cands)).card + 1

/-- `p` is visited by `os.walk(top)`: it lies below `top` and every directory
on the chain from `top` to `p` (inclusive) is a readable directory node. -/
def visitedP (fs : FS) (top p : Path) : Prop :=
  top <+: p ∧ ∀ q : Path, top <+: q → q <+: p → lookupFS fs q = some (.dir true)

/-- Pointwise containment of filesystems: every entry of `fs1` is an entry of
`fs0`. -/
def fsSub (fs1 fs0 : FS) : Prop :=
  ∀ p nd, lookupFS fs1 p = some nd → lookupFS fs0 p = some nd

/-! ## Concrete example filesystems used by witnesses and counterexamples -/

/-- A root `/r` whose only content is one empty subdirectory `/r/a`. -/
def fsRootA : FS := [(["r"], .dir true), (["r","a"], .dir true)]

/-- A root `/r` holding a file `/r/x` and a chain `/r/a/b` with `b` empty. -/
def fsChain : FS :=
  [(["r"], .dir true), (["r","x"], .file), (["r","a"], .dir true), (["r","a","b"], .dir true)]

/-- `fsChain` after removal of `/r/a/b` and `/r/a`. -/
def fsChainAfter : FS := [(["r"], .dir true), (["r","x"], .file)]

/-- A directory `/d` whose only entry is a symbolic link `/d/s` to a file. -/
def fsLinkToFile : FS := [(["d"], .dir true), (["d","s"], .symlink ["f"]), (["f"], .file)]

/-- A directory `/d` whose only entry is a symbolic link `/d/s` back to `/d`. -/
def fsLinkCycle : FS := [(["d"], .dir true), (["d","s"], .symlink ["d"])]

/-- A directory `/r/p` containing one regular file `/r/p/f`. -/
def fsWithFile : FS := [(["r"], .dir true), (["r","p"], .dir true), (["r","p","f"], .file)]

/-- A root `/r` with an unreadable subdirectory `/r/u`. -/
def fsUnreadable : FS := [(["r"], .dir true), (["r","u"], .dir false)]

/-! ## Basic lemmas about the filesystem primitives -/

theorem lookupFS_removeKey (fs : FS) (d p : Path) :
    lookupFS (removeKey fs d) p = if p = d then none else lookupFS fs p := by
  induction fs with
  | nil => simp [removeKey, lookupFS]
  | cons qn rest ih =>
    obtain ⟨q, n⟩ := qn
    simp only [removeKey, List.filter_cons] at ih ⊢
    by_cases hqd : q = d <;> by_cases hpd : p = d <;> by_cases hqp : q = p <;>
      simp_all [lookupFS]

theorem childPaths_removeKey (fs : FS) (d p : Path) :
    childPaths (removeKey fs d) p = (childPaths fs p).filter (fun c => c ≠ d) := by
  induction fs with
  | nil => rfl
  | cons qn rest ih =>
    obtain ⟨q, n⟩ := qn
    by_cases hqd : q = d
    · subst hqd
      have h1 : removeKey ((q, n) :: rest) q = removeKey rest q := by
        simp [removeKey, List.filter_cons]
      rw [h1, ih]
      by_cases hc : q.dropLast = p ∧ q ≠ []
      · rw [show childPaths ((q, n) :: rest) p = q :: childPaths rest p by
          simp [childPaths, List.filterMap_cons, hc]]
        simp [List.filter_cons]
      · rw [show childPaths ((q, n) :: rest) p = childPaths rest p by
          simp [childPaths, List.filterMap_cons, hc]]
    · have h1 : removeKey ((q, n) :: rest) d = (q, n) :: removeKey rest d := by
        simp [removeKey, List.filter_cons, hqd]
      rw [h1]
      by_cases hc : q.dropLast = p ∧ q ≠ []
      · rw [show childPaths ((q, n) :: removeKey rest d) p
              = q :: childPaths (removeKey rest d) p by
            simp [childPaths, List.filterMap_cons, hc],
          show childPaths ((q, n) :: rest) p = q :: childPaths rest p by
            simp [childPaths, List.filterMap_cons, hc],
          ih]
        simp [List.filter_cons, hqd]
      · rw [show childPaths ((q, n) :: removeKey rest d) p
              = childPaths (removeKey rest d) p by
            simp [childPaths, List.filterMap_cons, hc],
          show childPaths ((q, n) :: rest) p = childPaths rest p by
            simp [childPaths, List.filterMap_cons, hc],
          ih]

theorem lookupFS_mem {fs : FS} {q : Path} {nd : Node} (h : lookupFS fs q = some nd) :
    (q, nd) ∈ fs := by
  induction fs with
  | nil => simp [lookupFS] at h
  | cons qn rest ih =>
    obtain ⟨q', n'⟩ := qn
    simp only [lookupFS] at h
    by_cases hq : q' = q
    · subst hq
      simp_all
    · simp only [hq, if_false] at h
      exact List.mem_cons_of_mem _ (ih h)

theorem mem_childPaths {fs : FS} {q p : Path} {nd : Node} (h : (q, nd) ∈ fs)
    (hd : q.dropLast = p) (hne : q ≠ []) : q ∈ childPaths fs p := by
  simp only [childPaths, List.mem_filterMap]
  exact ⟨(q, nd), h, by simp [hd, hne]⟩

theorem dropLast_ne_of_childPaths_nil {fs : FS} {d q : Path} {nd : Node}
    (h : childPaths fs d = []) (hq : (q, nd) ∈ fs) (hne : q ≠ []) : q.dropLast ≠ d := by
  intro hdrop
  have := mem_childPaths hq hdrop hne
  simp [h] at this

theorem resolve_self {fs : FS} {p : Path} {b : Bool}
    (h : lookupFS fs p = some (.dir b)) : resolve fs 40 p = some p := by
  show resolve fs (39 + 1) p = some p
  simp [resolve, h]

theorem resolve_self_file {fs : FS} {p : Path}
    (h : lookupFS fs p = some .file) : resolve fs 40 p = some p := by
  show resolve fs (39 + 1) p = some p
  simp [resolve, h]

theorem scanEntriesWith_ne_true_of_file {fs : FS} {l : List Path} {c0 : Path}
    (w : Path → Option Bool) (follow : Bool)
    (hc : c0 ∈ l) (hf : lookupFS fs c0 = some .file) :
    scanEntriesWith w fs follow l ≠ some true := by
  induction l with
  | nil => simp at hc
  | cons c rest ih =>
    simp only [scanEntriesWith]
    rcases List.mem_cons.mp hc with hc0 | hc0
    · subst hc0
      have hs : isSymlinkB fs c0 = false := by simp [isSymlinkB, hf]
      simp [hs]
    · cases h1 : (!follow || !(isSymlinkB fs c))
      · cases h2 : isDirR fs c
        · simpa [h1, h2] using ih hc0
        · cases hw : w c with
          | none => simp [h1, h2, hw]
          | some bb =>
            cases bb
            · simp [h1, h2, hw]
            · simpa [h1, h2, hw] using ih hc0
      · simp [h1]

theorem check_ne_true_of_fileChild {fs : FS} {p : Path} {n : String} {b : Bool}
    (hdir : lookupFS fs p = some (.dir b)) (hfile : lookupFS fs (p ++ [n]) = some .file)
    (follow : Bool) (fuel : Nat) :
    isDirectoryEmptyF fs follow fuel p ≠ some true := by
  cases fuel with
  | zero => simp [isDirectoryEmptyF]
  | succ f =>
    have hres : resolve fs 40 p = some p := resolve_self hdir
    cases b
    · simp [isDirectoryEmptyF, hres, hdir]
    · have hcmem : p ++ [n] ∈ childPaths fs p :=
        mem_childPaths (lookupFS_mem hfile) (by simp) (by simp)
      simp only [isDirectoryEmptyF, hres, hdir]
      exact scanEntriesWith_ne_true_of_file _ _ hcmem hfile

theorem checkFalse_char (fs : FS) (p : Path) (f : Nat) :
    isDirectoryEmptyF fs false (f + 1) p = some (emptyNowB fs p) := by
  simp only [isDirectoryEmptyF, emptyNowB]
  cases hres : resolve fs 40 p with
  | none => rfl
  | some q =>
    cases hl : lookupFS fs q with
    | none => simp [hl]
    | some nd =>
      cases nd with
      | file => simp [hl]
      | symlink t => simp [hl]
      | dir r =>
        cases r
        · simp [hl]
        · cases hc : childPaths fs q with
          | nil => simp [hl, hc, scanEntriesWith]
          | cons c cs => simp [hl, hc, scanEntriesWith]

/-! ## Worklist bookkeeping lemmas -/

theorem chooseDeepest_mem (x : Path) (xs : List Path) :
    chooseDeepest x xs ∈ x :: xs := by
  induction xs generalizing x with
  | nil => simp [chooseDeepest]
  | cons y ys ih =>
    have h := ih (if y.length > x.length then y else x)
    simp only [chooseDeepest, List.foldl_cons] at h ⊢
    rcases List.mem_cons.mp h with he | hm
    · by_cases hxy : y.length > x.length
      · rw [if_pos hxy] at he ⊢
        rw [he]
        simp
      · rw [if_neg hxy] at he ⊢
        rw [he]
        simp
    · simp [hm]

theorem mem_insertTP {x p : Path} {tp : List Path} :
    x ∈ insertTP p tp ↔ x = p ∨ x ∈ tp := by
  simp only [insertTP]
  by_cases h : p ∈ tp
  · simp only [h, if_true]
    constructor
    · tauto
    · rintro (rfl | hx) <;> assumption
  · simp [h, List.mem_cons]

theorem mem_insertTP_of_mem {x p : Path} {tp : List Path} (h : x ∈ tp) :
    x ∈ insertTP p tp := mem_insertTP.mpr (Or.inr h)

theorem insertTP_length (p : Path) (tp : List Path) :
    (insertTP p tp).length ≤ tp.length + 1 := by
  simp only [insertTP]
  split <;> simp

theorem mem_enqueueParent_of_mem {fs : FS} {d : Path} {removed rest : List Path} {x : Path}
    (h : x ∈ rest) : x ∈ enqueueParent fs d removed rest := by
  simp only [enqueueParent]
  split
  · exact mem_insertTP_of_mem h
  · exact h

theorem enqueueParent_length (fs : FS) (d : Path) (removed rest : List Path) :
    (enqueueParent fs d removed rest).length ≤ rest.length + 1 := by
  simp only [enqueueParent]
  split
  · exact insertTP_length _ _
  · omega

theorem mem_enqueueParent {fs : FS} {d : Path} {removed rest : List Path} {x : Path}
    (h : x ∈ enqueueParent fs d removed rest) : x = d.dropLast ∨ x ∈ rest := by
  simp only [enqueueParent] at h
  split at h
  · exact mem_insertTP.mp h
  · exact Or.inr h

theorem mem_insDepth {x p : Path} {l : List Path} :
    x ∈ insDepth p l ↔ x = p ∨ x ∈ l := by
  induction l with
  | nil => simp [insDepth]
  | cons q rest ih =>
    simp only [insDepth]
    split
    · simp_all [List.mem_cons]
      tauto
    · simp_all [List.mem_cons]

theorem mem_sortByDepthDesc {x : Path} {l : List Path} :
    x ∈ sortByDepthDesc l ↔ x ∈ l := by
  induction l with
  | nil => simp [sortByDepthDesc]
  | cons q rest ih =>
    simp only [sortByDepthDesc, List.foldr_cons] at ih ⊢
    rw [mem_insDepth, ih, List.mem_cons]

theorem mem_initTP {x : Path} {cands : List Path} : x ∈ initTP cands ↔ x ∈ cands := by
  have general : ∀ (cs : List Path) (acc : List Path),
      x ∈ cs.foldl (fun tp p => insertTP p tp) acc ↔ x ∈ cs ∨ x ∈ acc := by
    intro cs
    induction cs with
    | nil => simp
    | cons c rest ih =>
      intro acc
      rw [List.foldl_cons, ih, mem_insertTP, List.mem_cons]
      tauto
  rw [initTP, general]
  simp

/-! ## Scanner collection lemmas -/

theorem collectEmptyWith_mem_rev {check : Path → Option Bool} {root : Path}
    {l acc : List Path} (h : collectEmptyWith check root l = some acc) {p : Path}
    (hp : p ∈ acc) : p ∈ l ∧ p ≠ root ∧ check p = some true := by
  induction l generalizing acc with
  | nil =>
    simp only [collectEmptyWith] at h
    cases h
    simp at hp
  | cons q rest ih =>
    simp only [collectEmptyWith] at h
    by_cases hq : q = root
    · rw [if_pos hq] at h
      rcases ih h hp with ⟨h1, h2, h3⟩
      exact ⟨List.mem_cons_of_mem _ h1, h2, h3⟩
    · rw [if_neg hq] at h
      cases hcq : check q with
      | none => rw [hcq] at h; cases h
      | some b =>
        rw [hcq] at h
        cases b
        · rcases ih h hp with ⟨h1, h2, h3⟩
          exact ⟨List.mem_cons_of_mem _ h1, h2, h3⟩
        · cases hrec : collectEmptyWith check root rest with
          | none => rw [hrec] at h; cases h
          | some acc0 =>
            rw [hrec] at h
            simp only [Option.map_some] at h
            cases h
            rcases List.mem_cons.mp hp with rfl | hp0
            · exact ⟨List.mem_cons_self _ _, hq, hcq⟩
            · rcases ih hrec hp0 with ⟨h1, h2, h3⟩
              exact ⟨List.mem_cons_of_mem _ h1, h2, h3⟩

theorem collectEmptyWith_mem_fwd {check : Path → Option Bool} {root : Path}
    {l acc : List Path} (h : collectEmptyWith check root l = some acc) {p : Path}
    (hp : p ∈ l) (hroot : p ≠ root) :
    ∃ b, check p = some b ∧ (b = true → p ∈ acc) := by
  induction l generalizing acc with
  | nil => simp at hp
  | cons q rest ih =>
    simp only [collectEmptyWith] at h
    by_cases hq : q = root
    · rw [if_pos hq] at h
      rcases List.mem_cons.mp hp with rfl | hp0
      · exact absurd hq hroot
      · exact ih h hp0
    · rw [if_neg hq] at h
      cases hcq : check q with
      | none => rw [hcq] at h; cases h
      | some b =>
        rw [hcq] at h
        cases b
        · rcases List.mem_cons.mp hp with rfl | hp0
          · exact ⟨false, hcq, by simp⟩
          · exact ih h hp0
        · cases hrec : collectEmptyWith check root rest with
          | none => rw [hrec] at h; cases h
          | some acc0 =>
            rw [hrec] at h
            simp only [Option.map_some] at h
            cases h
            rcases List.mem_cons.mp hp with rfl | hp0
            · exact ⟨true, hcq, fun _ => List.mem_cons_self _ _⟩
            · rcases ih hrec hp0 with ⟨b, hb1, hb2⟩
              exact ⟨b, hb1, fun he => List.mem_cons_of_mem _ (hb2 he)⟩

/-! ## Branch equations for the reclaim loop -/

theorem reclaimLoop_nil (cF : Nat) (dry follow : Bool) (f : Nat) (fs : FS)
    (removed : List Path) (count : Nat) :
    reclaimLoop cF dry follow (f + 1) fs [] removed count = .ok count removed fs := rfl

theorem reclaimLoop_skip {cF : Nat} {dry follow : Bool} {f : Nat} {fs : FS}
    {x : Path} {xs removed : List Path} {count : Nat}
    (h : chooseDeepest x xs ∈ removed) :
    reclaimLoop cF dry follow (f + 1) fs (x :: xs) removed count
      = reclaimLoop cF dry follow f fs ((x :: xs).erase (chooseDeepest x xs))
          removed count := by
  simp [reclaimLoop, h]

theorem reclaimLoop_diverged {cF : Nat} {dry follow : Bool} {f : Nat} {fs : FS}
    {x : Path} {xs removed : List Path} {count : Nat}
    (h : chooseDeepest x xs ∉ removed)
    (hc : isDirectoryEmptyF fs follow cF (chooseDeepest x xs) = none) :
    reclaimLoop cF dry follow (f + 1) fs (x :: xs) removed count = .checkDiverged := by
  simp [reclaimLoop, h, hc]

theorem reclaimLoop_notEmpty {cF : Nat} {dry follow : Bool} {f : Nat} {fs : FS}
    {x : Path} {xs removed : List Path} {count : Nat}
    (h : chooseDeepest x xs ∉ removed)
    (hc : isDirectoryEmptyF fs follow cF (chooseDeepest x xs) = some false) :
    reclaimLoop cF dry follow (f + 1) fs (x :: xs) removed count
      = reclaimLoop cF dry follow f fs ((x :: xs).erase (chooseDeepest x xs))
          removed count := by
  simp [reclaimLoop, h, hc]

theorem reclaimLoop_dryRemove {cF : Nat} {follow : Bool} {f : Nat} {fs : FS}
    {x : Path} {xs removed : List Path} {count : Nat}
    (h : chooseDeepest x xs ∉ removed)
    (hc : isDirectoryEmptyF fs follow cF (chooseDeepest x xs) = some true) :
    reclaimLoop cF true follow (f + 1) fs (x :: xs) removed count
      = reclaimLoop cF true follow f fs
          (enqueueParent fs (chooseDeepest x xs) (chooseDeepest x xs :: removed)
            ((x :: xs).erase (chooseDeepest x xs)))
          (chooseDeepest x xs :: removed) (count + 1) := by
  simp [reclaimLoop, h, hc]

theorem reclaimLoop_rmFail {cF : Nat} {follow : Bool} {f : Nat} {fs : FS}
    {x : Path} {xs removed : List Path} {count : Nat}
    (h : chooseDeepest x xs ∉ removed)
    (hc : isDirectoryEmptyF fs follow cF (chooseDeepest x xs) = some true)
    (hrm : rmdirFS fs (chooseDeepest x xs) = none) :
    reclaimLoop cF false follow (f + 1) fs (x :: xs) removed count
      = reclaimLoop cF false follow f fs ((x :: xs).erase (chooseDeepest x xs))
          removed count := by
  simp [reclaimLoop, h, hc, hrm]

theorem reclaimLoop_remove {cF : Nat} {follow : Bool} {f : Nat} {fs fs2 : FS}
    {x : Path} {xs removed : List Path} {count : Nat}
    (h : chooseDeepest x xs ∉ removed)
    (hc : isDirectoryEmptyF fs follow cF (chooseDeepest x xs) = some true)
    (hrm : rmdirFS fs (chooseDeepest x xs) = some fs2) :
    reclaimLoop cF false follow (f + 1) fs (x :: xs) removed count
      = reclaimLoop cF false follow f fs2
          (enqueueParent fs2 (chooseDeepest x xs) (chooseDeepest x xs :: removed)
            ((x :: xs).erase (chooseDeepest x xs)))
          (chooseDeepest x xs :: removed) (count + 1) := by
  simp [reclaimLoop, h, hc, hrm]

/-- The removal count always equals the size of the duplicate-free removed
list: the loop invariant behind claim C10. -/
theorem reclaimLoop_count_nodup (cF : Nat) (dry follow : Bool) :
    ∀ (f : Nat) (fs : FS) (tp removed : List Path) (count c : Nat) (R : List Path)
      (fs1 : FS), count = removed.length → removed.Nodup →
      reclaimLoop cF dry follow f fs tp removed count = .ok c R fs1 →
      c = R.length ∧ R.Nodup := by
  intro f
  induction f with
  | zero =>
    intro fs tp removed count c R fs1 h1 h2 h3
    simp [reclaimLoop] at h3
  | succ f ih =>
    intro fs tp removed count c R fs1 h1 h2 h3
    cases tp with
    | nil =>
      rw [reclaimLoop_nil] at h3
      cases h3
      exact ⟨h1, h2⟩
    | cons x xs =>
      by_cases hmem : chooseDeepest x xs ∈ removed
      · rw [reclaimLoop_skip hmem] at h3
        exact ih _ _ _ _ _ _ _ h1 h2 h3
      · cases hc : isDirectoryEmptyF fs follow cF (chooseDeepest x xs) with
        | none =>
          rw [reclaimLoop_diverged hmem hc] at h3
          cases h3
        | some b =>
          cases b
          · rw [reclaimLoop_notEmpty hmem hc] at h3
            exact ih _ _ _ _ _ _ _ h1 h2 h3
          · cases hdry : dry
            · subst hdry
              cases hrm : rmdirFS fs (chooseDeepest x xs) with
              | none =>
                rw [reclaimLoop_rmFail hmem hc hrm] at h3
                exact ih _ _ _ _ _ _ _ h1 h2 h3
              | some fs2 =>
                rw [reclaimLoop_remove hmem hc hrm] at h3
                exact ih _ _ _ _ _ _ _ (by simp [h1]) (List.nodup_cons.mpr ⟨hmem, h2⟩) h3
            · subst hdry
              rw [reclaimLoop_dryRemove hmem hc] at h3
              exact ih _ _ _ _ _ _ _ (by simp [h1]) (List.nodup_cons.mpr ⟨hmem, h2⟩) h3

theorem rmdirFS_some {fs fs2 : FS} {d : Path} (h : rmdirFS fs d = some fs2) :
    (∃ bd, lookupFS fs d = some (.dir bd)) ∧ childPaths fs d = [] ∧
      fs2 = removeKey fs d := by
  unfold rmdirFS at h
  cases hl : lookupFS fs d with
  | none => rw [hl] at h; cases h
  | some nd =>
    rw [hl] at h
    cases nd with
    | file => cases h
    | symlink t => cases h
    | dir bd =>
      by_cases hc : childPaths fs d = []
      · rw [if_pos hc] at h
        cases h
        exact ⟨⟨bd, rfl⟩, hc, rfl⟩
      · rw [if_neg hc] at h
        cases h

theorem check_ne_true_of_unreadable {fs : FS} {u : Path}
    (h : lookupFS fs u = some (.dir false)) (follow : Bool) (f : Nat) :
    isDirectoryEmptyF fs follow f u ≠ some true := by
  cases f with
  | zero => simp [isDirectoryEmptyF]
  | succ f => simp [isDirectoryEmptyF, resolve_self h, h]

/-- Loop invariant behind claim C5: a directory that directly contains a
regular file is never recorded as removed (the pre-removal re-check can
never answer `Empty` on it) and survives, together with its file, to the
final filesystem. -/
theorem reclaimLoop_file_preserved (cF : Nat) (dry follow : Bool) (p : Path)
    (n : String) (b : Bool) :
    ∀ (f : Nat) (fs : FS) (tp removed : List Path) (count c : Nat) (R : List Path)
      (fs1 : FS),
      lookupFS fs p = some (.dir b) → lookupFS fs (p ++ [n]) = some .file →
      p ∉ removed →
      reclaimLoop cF dry follow f fs tp removed count = .ok c R fs1 →
      p ∉ R ∧ lookupFS fs1 p = some (.dir b) ∧
        lookupFS fs1 (p ++ [n]) = some .file := by
  intro f
  induction f with
  | zero =>
    intro fs tp removed count c R fs1 h1 h2 h3 h4
    simp [reclaimLoop] at h4
  | succ f ih =>
    intro fs tp removed count c R fs1 h1 h2 h3 h4
    cases tp with
    | nil =>
      rw [reclaimLoop_nil] at h4
      cases h4
      exact ⟨h3, h1, h2⟩
    | cons x xs =>
      by_cases hmem : chooseDeepest x xs ∈ removed
      · rw [reclaimLoop_skip hmem] at h4
        exact ih _ _ _ _ _ _ _ h1 h2 h3 h4
      · cases hc : isDirectoryEmptyF fs follow cF (chooseDeepest x xs) with
        | none =>
          rw [reclaimLoop_diverged hmem hc] at h4
          cases h4
        | some bb =>
          cases bb
          · rw [reclaimLoop_notEmpty hmem hc] at h4
            exact ih _ _ _ _ _ _ _ h1 h2 h3 h4
          · have hdp : chooseDeepest x xs ≠ p := by
              intro he
              exact check_ne_true_of_fileChild h1 h2 follow cF (he ▸ hc)
            cases hdry : dry
            · subst hdry
              cases hrm : rmdirFS fs (chooseDeepest x xs) with
              | none =>
                rw [reclaimLoop_rmFail hmem hc hrm] at h4
                exact ih _ _ _ _ _ _ _ h1 h2 h3 h4
              | some fs2 =>
                rw [reclaimLoop_remove hmem hc hrm] at h4
                obtain ⟨⟨bd, hld⟩, hcp, hfs2⟩ := rmdirFS_some hrm
                have hdf : chooseDeepest x xs ≠ p ++ [n] := by
                  intro he
                  rw [he, h2] at hld
                  cases hld
                subst hfs2
                refine ih _ _ _ _ _ _ _ ?_ ?_ ?_ h4
                · rw [lookupFS_removeKey, if_neg (fun he => hdp he.symm)]
                  exact h1
                · rw [lookupFS_removeKey, if_neg (fun he => hdf he.symm)]
                  exact h2
                · simp only [List.mem_cons, not_or]
                  exact ⟨fun he => hdp he.symm, h3⟩
            · subst hdry
              rw [reclaimLoop_dryRemove hmem hc] at h4
              refine ih _ _ _ _ _ _ _ h1 h2 ?_ h4
              simp only [List.mem_cons, not_or]
              exact ⟨fun he => hdp he.symm, h3⟩

/-- Loop invariant behind claim C6: an unreadable directory is never recorded
as removed and survives to the final filesystem unchanged. -/
theorem reclaimLoop_unreadable_preserved (cF : Nat) (dry follow : Bool) (u : Path) :
    ∀ (f : Nat) (fs : FS) (tp removed : List Path) (count c : Nat) (R : List Path)
      (fs1 : FS),
      lookupFS fs u = some (.dir false) → u ∉ removed →
      reclaimLoop cF dry follow f fs tp removed count = .ok c R fs1 →
      u ∉ R ∧ lookupFS fs1 u = some (.dir false) := by
  intro f
  induction f with
  | zero =>
    intro fs tp removed count c R fs1 h1 h3 h4
    simp [reclaimLoop] at h4
  | succ f ih =>
    intro fs tp removed count c R fs1 h1 h3 h4
    cases tp with
    | nil =>
      rw [reclaimLoop_nil] at h4
      cases h4
      exact ⟨h3, h1⟩
    | cons x xs =>
      by_cases hmem : chooseDeepest x xs ∈ removed
      · rw [reclaimLoop_skip hmem] at h4
        exact ih _ _ _ _ _ _ _ h1 h3 h4
      · cases hc : isDirectoryEmptyF fs follow cF (chooseDeepest x xs) with
        | none =>
          rw [reclaimLoop_diverged hmem hc] at h4
          cases h4
        | some bb =>
          cases bb
          · rw [reclaimLoop_notEmpty hmem hc] at h4
            exact ih _ _ _ _ _ _ _ h1 h3 h4
          · have hdu : chooseDeepest x xs ≠ u := by
              intro he
              exact check_ne_true_of_unreadable h1 follow cF (he ▸ hc)
            cases hdry : dry
            · subst hdry
              cases hrm : rmdirFS fs (chooseDeepest x xs) with
              | none =>
                rw [reclaimLoop_rmFail hmem hc hrm] at h4
                exact ih _ _ _ _ _ _ _ h1 h3 h4
              | some fs2 =>
                rw [reclaimLoop_remove hmem hc hrm] at h4
                obtain ⟨⟨bd, hld⟩, hcp, hfs2⟩ := rmdirFS_some hrm
                subst hfs2
                refine ih _ _ _ _ _ _ _ ?_ ?_ h4
                · rw [lookupFS_removeKey, if_neg (fun he => hdu he.symm)]
                  exact h1
                · simp only [List.mem_cons, not_or]
                  exact ⟨fun he => hdu he.symm, h3⟩
            · subst hdry
              rw [reclaimLoop_dryRemove hmem hc] at h4
              refine ih _ _ _ _ _ _ _ h1 ?_ h4
              simp only [List.mem_cons, not_or]
              exact ⟨fun he => hdu he.symm, h3⟩

/-! ## Termination of the worklist loop -/

theorem mem_prefixClosure {l : List Path} {p : Path} :
    p ∈ prefixClosure l ↔ ∃ q ∈ l, p <+: q := by
  induction l with
  | nil => simp [prefixClosure]
  | cons q rest ih =>
    simp only [prefixClosure, List.foldr_cons, Finset.mem_union, List.mem_toFinset,
      List.mem_inits] at ih ⊢
    rw [ih]
    simp only [List.mem_cons]
    constructor
    · rintro (h | ⟨r, hr, hpr⟩)
      · exact ⟨q, Or.inl rfl, h⟩
      · exact ⟨r, Or.inr hr, hpr⟩
    · rintro ⟨r, rfl | hr, hpr⟩
      · exact Or.inl hpr
      · exact Or.inr ⟨r, hr, hpr⟩

theorem dropLast_prefix_self (p : Path) : p.dropLast <+: p := by
  cases hp : p with
  | nil => simp
  | cons a l =>
    rw [← hp]
    refine ⟨[p.getLast (by simp [hp])], List.dropLast_append_getLast _⟩

theorem mem_prefixClosure_of_mem {l : List Path} {p : Path} (h : p ∈ l) :
    p ∈ prefixClosure l :=
  mem_prefixClosure.mpr ⟨p, h, List.prefix_refl p⟩

theorem prefixClosure_dropLast {l : List Path} {p : Path} (h : p ∈ prefixClosure l) :
    p.dropLast ∈ prefixClosure l := by
  rcases mem_prefixClosure.mp h with ⟨q, hq, hpq⟩
  exact mem_prefixClosure.mpr ⟨q, hq, (dropLast_prefix_self p).trans hpq⟩

/-- Each loop iteration either pops a worklist entry outright or newly marks a
member of the ancestor-closed universe `U` as removed; the measure
`|worklist| + 2|U \ removed|` strictly decreases, so the loop cannot run
forever: with fuel exceeding the initial measure it never exhausts its fuel. -/
theorem reclaimLoop_no_outOfFuel (cF : Nat) (dry follow : Bool) (U : Finset Path)
    (hU : ∀ p ∈ U, p.dropLast ∈ U) :
    ∀ (f : Nat) (fs : FS) (tp removed : List Path) (count : Nat),
      (∀ p ∈ tp, p ∈ U) →
      tp.length + 2 * (U \ removed.toFinset).card < f →
      reclaimLoop cF dry follow f fs tp removed count ≠ .outOfFuel := by
  intro f
  induction f with
  | zero =>
    intro fs tp removed count htp hlt
    exact absurd hlt (Nat.not_lt_zero _)
  | succ f ih =>
    intro fs tp removed count htp hlt
    cases tp with
    | nil =>
      rw [reclaimLoop_nil]
      simp
    | cons x xs =>
      have hd : chooseDeepest x xs ∈ x :: xs := chooseDeepest_mem x xs
      have hdU : chooseDeepest x xs ∈ U := htp _ hd
      have herase_len : ((x :: xs).erase (chooseDeepest x xs)).length
          = (x :: xs).length - 1 := List.length_erase_of_mem hd
      have herase_sub : ∀ p ∈ (x :: xs).erase (chooseDeepest x xs), p ∈ U :=
        fun p hp => htp p (List.mem_of_mem_erase hp)
      have hlpos : 0 < (x :: xs).length := by simp
      by_cases hmem : chooseDeepest x xs ∈ removed
      · rw [reclaimLoop_skip hmem]
        apply ih _ _ _ _ herase_sub
        rw [herase_len]
        omega
      · cases hc : isDirectoryEmptyF fs follow cF (chooseDeepest x xs) with
        | none =>
          rw [reclaimLoop_diverged hmem hc]
          simp
        | some bb =>
          have hcard : (U \ (chooseDeepest x xs :: removed).toFinset).card + 1
              = (U \ removed.toFinset).card := by
            rw [List.toFinset_cons]
            have hset : U \ insert (chooseDeepest x xs) removed.toFinset
                = (U \ removed.toFinset).erase (chooseDeepest x xs) := by
              ext a
              simp only [Finset.mem_sdiff, Finset.mem_insert, Finset.mem_erase]
              tauto
            rw [hset, Finset.card_erase_of_mem (by
              simp only [Finset.mem_sdiff, List.mem_toFinset]
              exact ⟨hdU, hmem⟩)]
            have hpos : 0 < (U \ removed.toFinset).card :=
              Finset.card_pos.mpr ⟨chooseDeepest x xs, by
                simp only [Finset.mem_sdiff, List.mem_toFinset]
                exact ⟨hdU, hmem⟩⟩
            omega
          cases bb
          · rw [reclaimLoop_notEmpty hmem hc]
            apply ih _ _ _ _ herase_sub
            rw [herase_len]
            omega
          · cases hdry : dry
            · subst hdry
              cases hrm : rmdirFS fs (chooseDeepest x xs) with
              | none =>
                rw [reclaimLoop_rmFail hmem hc hrm]
                apply ih _ _ _ _ herase_sub
                rw [herase_len]
                omega
              | some fs2 =>
                rw [reclaimLoop_remove hmem hc hrm]
                apply ih
                · intro p hp
                  rcases mem_enqueueParent hp with he | hp0
                  · exact he ▸ hU _ hdU
                  · exact herase_sub _ hp0
                · have hlen := enqueueParent_length fs2 (chooseDeepest x xs)
                    (chooseDeepest x xs :: removed) ((x :: xs).erase (chooseDeepest x xs))
                  rw [herase_len] at hlen
                  omega
            · subst hdry
              rw [reclaimLoop_dryRemove hmem hc]
              apply ih
              · intro p hp
                rcases mem_enqueueParent hp with he | hp0
                · exact he ▸ hU _ hdU
                · exact herase_sub _ hp0
              · have hlen := enqueueParent_length fs (chooseDeepest x xs)
                  (chooseDeepest x xs :: removed) ((x :: xs).erase (chooseDeepest x xs))
                rw [herase_len] at hlen
                omega

/-! ## Characterisation of the bottom-up walk (default no-follow policy) -/

theorem prefix_comparable {p q r : Path} (h1 : p <+: r) (h2 : q <+: r) :
    p <+: q ∨ q <+: p := by
  induction r generalizing p q with
  | nil =>
    rw [List.prefix_nil] at h1 h2
    subst h1
    subst h2
    simp
  | cons a r ih =>
    cases p with
    | nil => exact Or.inl (List.nil_prefix)
    | cons b p =>
      cases q with
      | nil => exact Or.inr (List.nil_prefix)
      | cons c q =>
        rw [List.cons_prefix_cons] at h1 h2
        obtain ⟨rfl, h1x⟩ := h1
        obtain ⟨rfl, h2x⟩ := h2
        rcases ih h1x h2x with h | h
        · exact Or.inl (List.cons_prefix_cons.mpr ⟨rfl, h⟩)
        · exact Or.inr (List.cons_prefix_cons.mpr ⟨rfl, h⟩)

theorem prefix_antisym {p q : Path} (h1 : p <+: q) (h2 : q <+: p) : p = q :=
  h1.eq_of_length (Nat.le_antisymm h1.length_le h2.length_le)

theorem mem_childPaths_iff {fs : FS} {top c : Path} :
    c ∈ childPaths fs top ↔ (∃ nd, (c, nd) ∈ fs) ∧ c.dropLast = top ∧ c ≠ [] := by
  simp only [childPaths, List.mem_filterMap]
  constructor
  · rintro ⟨⟨q, nd⟩, hmem, hsome⟩
    by_cases hcond : q.dropLast = top ∧ q ≠ []
    · rw [if_pos hcond] at hsome
      cases hsome
      exact ⟨⟨nd, hmem⟩, hcond⟩
    · rw [if_neg hcond] at hsome
      cases hsome
  · rintro ⟨⟨nd, hmem⟩, h1, h2⟩
    exact ⟨(c, nd), hmem, by rw [if_pos ⟨h1, h2⟩]⟩

theorem mem_walkInto_false {fs : FS} {top c : Path} :
    c ∈ walkInto fs false top ↔ c ∈ childPaths fs top ∧ isRealDirB fs c = true := by
  simp only [walkInto, List.mem_filterMap, Bool.false_eq_true, if_false]
  constructor
  · rintro ⟨c0, hc0, hsome⟩
    by_cases hr : isRealDirB fs c0 = true
    · rw [if_pos hr] at hsome
      cases hsome
      exact ⟨hc0, hr⟩
    · rw [if_neg hr] at hsome
      cases hsome
  · rintro ⟨hc, hr⟩
    exact ⟨c, hc, by rw [if_pos hr]⟩

theorem isRealDirB_spec {fs : FS} {c : Path} (h : isRealDirB fs c = true) :
    ∃ bc, lookupFS fs c = some (.dir bc) := by
  unfold isRealDirB at h
  cases hl : lookupFS fs c with
  | none => rw [hl] at h; cases h
  | some nd =>
    rw [hl] at h
    cases nd with
    | file => cases h
    | symlink t => cases h
    | dir bc => exact ⟨bc, rfl⟩

theorem walkKidsWith_mem_rev {w : Path → Option (List Path)} {cs l : List Path}
    (h : walkKidsWith w cs = some l) {p : Path} (hp : p ∈ l) :
    ∃ c ∈ cs, ∃ lc, w c = some lc ∧ p ∈ lc := by
  induction cs generalizing l with
  | nil =>
    simp only [walkKidsWith] at h
    cases h
    simp at hp
  | cons c rest ih =>
    simp only [walkKidsWith] at h
    cases hw : w c with
    | none => rw [hw] at h; cases h
    | some lc =>
      rw [hw] at h
      cases hr : walkKidsWith w rest with
      | none => rw [hr] at h; cases h
      | some lr =>
        rw [hr] at h
        cases h
        rcases List.mem_append.mp hp with h1 | h1
        · exact ⟨c, List.mem_cons_self _ _, lc, hw, h1⟩
        · rcases ih hr h1 with ⟨c0, hc0, lc0, hw0, hp0⟩
          exact ⟨c0, List.mem_cons_of_mem _ hc0, lc0, hw0, hp0⟩

theorem walkKidsWith_mem_fwd {w : Path → Option (List Path)} {cs l : List Path}
    (h : walkKidsWith w cs = some l) {c : Path} (hc : c ∈ cs) :
    ∃ lc, w c = some lc ∧ ∀ p ∈ lc, p ∈ l := by
  induction cs generalizing l with
  | nil => simp at hc
  | cons c0 rest ih =>
    simp only [walkKidsWith] at h
    cases hw : w c0 with
    | none => rw [hw] at h; cases h
    | some lc0 =>
      rw [hw] at h
      cases hr : walkKidsWith w rest with
      | none => rw [hr] at h; cases h
      | some lr =>
        rw [hr] at h
        cases h
        rcases List.mem_cons.mp hc with rfl | hc0
        · exact ⟨lc0, hw, fun p hp => List.mem_append.mpr (Or.inl hp)⟩
        · rcases ih hr hc0 with ⟨lc, hw1, hsub⟩
          exact ⟨lc, hw1, fun p hp => List.mem_append.mpr (Or.inr (hsub p hp))⟩

theorem walkB_sound {fs : FS} :
    ∀ {fuel : Nat} {top : Path} {l : List Path} {p : Path},
      walkB fs false fuel top = some l → p ∈ l → visitedP fs top p := by
  intro fuel
  induction fuel with
  | zero =>
    intro top l p h
    cases h
  | succ f ih =>
    intro top l p h hp
    unfold walkB at h
    cases hl : lookupFS fs top with
    | none =>
      rw [hl] at h
      cases h
      simp at hp
    | some nd =>
      rw [hl] at h
      match nd, h with
      | .file, h => cases h; simp at hp
      | .symlink t, h => cases h; simp at hp
      | .dir false, h => cases h; simp at hp
      | .dir true, h =>
        cases hk : walkKidsWith (walkB fs false f) (walkInto fs false top) with
        | none => rw [hk] at h; cases h
        | some kids =>
          rw [hk] at h
          cases h
          rcases List.mem_append.mp hp with hpk | hpt
          · rcases walkKidsWith_mem_rev hk hpk with ⟨c, hcmem, lc, hwc, hplc⟩
            rcases mem_walkInto_false.mp hcmem with ⟨hcchild, hcdir⟩
            rcases mem_childPaths_iff.mp hcchild with ⟨⟨ndc, _⟩, hcdrop, hcne⟩
            have hvc : visitedP fs c p := ih hwc hplc
            have hceq : c = top ++ [c.getLast hcne] := by
              rw [← hcdrop]
              exact (List.dropLast_append_getLast hcne).symm
            have htopc : top <+: c := by
              rw [← hcdrop]
              exact dropLast_prefix_self c
            refine ⟨htopc.trans hvc.1, ?_⟩
            intro q hq1 hq2
            rcases prefix_comparable hq2 hvc.1 with hqc | hcq
            · have hclen : c.length = top.length + 1 := by
                rw [hceq]
                simp
              rcases Nat.eq_or_lt_of_le hqc.length_le with hlen | hlen
              · have hqeqc : q = c := hqc.eq_of_length hlen
                rw [hqeqc]
                exact hvc.2 c (List.prefix_refl c) hvc.1
              · have hqtop : q = top :=
                  (hq1.eq_of_length (Nat.le_antisymm hq1.length_le (by omega))).symm
                rw [hqtop]
                exact hl
            · exact hvc.2 q hcq hq2
          · have hpt2 : p = top := by simpa using hpt
            subst hpt2
            refine ⟨List.prefix_refl p, ?_⟩
            intro q hq1 hq2
            have : q = p := prefix_antisym hq2 hq1
            rw [this]
            exact hl

theorem walkB_complete {fs : FS} :
    ∀ {fuel : Nat} {top : Path} {l : List Path} {p : Path},
      walkB fs false fuel top = some l → visitedP fs top p → p ∈ l := by
  intro fuel
  induction fuel with
  | zero =>
    intro top l p h
    cases h
  | succ f ih =>
    intro top l p h hv
    have htop : lookupFS fs top = some (.dir true) :=
      hv.2 top (List.prefix_refl top) hv.1
    unfold walkB at h
    rw [htop] at h
    cases hk : walkKidsWith (walkB fs false f) (walkInto fs false top) with
    | none => rw [hk] at h; cases h
    | some kids =>
      rw [hk] at h
      cases h
      by_cases hptop : p = top
      · subst hptop
        simp
      · rcases hv.1 with ⟨s, hs⟩
        cases s with
        | nil =>
          simp only [List.append_nil] at hs
          exact absurd hs.symm hptop
        | cons n s2 =>
          have hcpre : top ++ [n] <+: p := ⟨s2, by rw [← hs]; simp⟩
          have hcdir : lookupFS fs (top ++ [n]) = some (.dir true) :=
            hv.2 (top ++ [n]) ⟨[n], rfl⟩ hcpre
          have hcchild : top ++ [n] ∈ childPaths fs top :=
            mem_childPaths (lookupFS_mem hcdir) (List.dropLast_concat) (by simp)
          have hcinto : top ++ [n] ∈ walkInto fs false top :=
            mem_walkInto_false.mpr ⟨hcchild, by simp [isRealDirB, hcdir]⟩
          rcases walkKidsWith_mem_fwd hk hcinto with ⟨lc, hwc, hsub⟩
          have hvc : visitedP fs (top ++ [n]) p := by
            refine ⟨hcpre, ?_⟩
            intro q hq1 hq2
            exact hv.2 q ((List.prefix_append top [n]).trans hq1) hq2
          exact List.mem_append.mpr (Or.inl (hsub p (ih hwc hvc)))

theorem reclaimLoop_fsSub (cF : Nat) (dry follow : Bool) :
    ∀ (f : Nat) (fs : FS) (tp removed : List Path) (count c : Nat) (R : List Path)
      (fs1 : FS),
      reclaimLoop cF dry follow f fs tp removed count = .ok c R fs1 → fsSub fs1 fs := by
  intro f
  induction f with
  | zero =>
    intro fs tp removed count c R fs1 h
    simp [reclaimLoop] at h
  | succ f ih =>
    intro fs tp removed count c R fs1 h
    cases tp with
    | nil =>
      rw [reclaimLoop_nil] at h
      cases h
      exact fun p nd hp => hp
    | cons x xs =>
      by_cases hmem : chooseDeepest x xs ∈ removed
      · rw [reclaimLoop_skip hmem] at h
        exact ih _ _ _ _ _ _ _ h
      · cases hc : isDirectoryEmptyF fs follow cF (chooseDeepest x xs) with
        | none =>
          rw [reclaimLoop_diverged hmem hc] at h
          cases h
        | some bb =>
          cases bb
          · rw [reclaimLoop_notEmpty hmem hc] at h
            exact ih _ _ _ _ _ _ _ h
          · cases hdry : dry
            · subst hdry
              cases hrm : rmdirFS fs (chooseDeepest x xs) with
              | none =>
                rw [reclaimLoop_rmFail hmem hc hrm] at h
                exact ih _ _ _ _ _ _ _ h
              | some fs2 =>
                rw [reclaimLoop_remove hmem hc hrm] at h
                obtain ⟨_, _, hfs2⟩ := rmdirFS_some hrm
                subst hfs2
                intro p nd hp
                have := ih _ _ _ _ _ _ _ h p nd hp
                rw [lookupFS_removeKey] at this
                by_cases hpd : p = chooseDeepest x xs
                · rw [if_pos hpd] at this
                  cases this
                · rw [if_neg hpd] at this
                  exact this
            · subst hdry
              rw [reclaimLoop_dryRemove hmem hc] at h
              exact ih _ _ _ _ _ _ _ h

theorem emptyNowB_true_of {fs : FS} {p : Path} (h : lookupFS fs p = some (.dir true))
    (hc : childPaths fs p = []) : emptyNowB fs p = true := by
  simp [emptyNowB, resolve_self h, h, hc]

theorem rmdirFS_of_empty {fs : FS} {d : Path} {b : Bool}
    (h : lookupFS fs d = some (.dir b)) (hc : childPaths fs d = []) :
    rmdirFS fs d = some (removeKey fs d) := by
  simp [rmdirFS, h, hc]

theorem filter_ne_nil {l : List Path} {d : Path}
    (h : l.filter (fun c => c ≠ d) = []) (hd : d ∉ l) : l = [] := by
  cases l with
  | nil => rfl
  | cons a rest =>
    have ha : a = d := by
      by_contra hne
      have hmem : a ∈ (a :: rest).filter (fun c => c ≠ d) :=
        List.mem_filter.mpr ⟨List.mem_cons_self _ _, by simp [hne]⟩
      rw [h] at hmem
      simp at hmem
    exact absurd (ha ▸ List.mem_cons_self a rest) hd

/-- Postcondition of a completed real run with the default no-follow policy:
starting from a worklist containing every currently-empty readable directory
visited below `root`, and with nothing yet removed still present, the final
filesystem holds no empty readable directory visited below `root` (with the
chain assessed against the initial filesystem `fs0`). -/
theorem reclaimLoop_post (cF : Nat) (fs0 : FS) (root : Path) :
    ∀ (f : Nat) (fs : FS) (tp removed : List Path) (count c : Nat) (R : List Path)
      (fs1 : FS),
      (∀ p, p ≠ root → visitedP fs0 root p → lookupFS fs p = some (.dir true) →
        childPaths fs p = [] → p ∈ tp) →
      (∀ r ∈ removed, lookupFS fs r = none) →
      reclaimLoop cF false false f fs tp removed count = .ok c R fs1 →
      ∀ p, p ≠ root → visitedP fs0 root p → lookupFS fs1 p = some (.dir true) →
        childPaths fs1 p = [] → False := by
  intro f
  induction f with
  | zero =>
    intro fs tp removed count c R fs1 hA hB hrun
    simp [reclaimLoop] at hrun
  | succ f ih =>
    intro fs tp removed count c R fs1 hA hB hrun
    cases tp with
    | nil =>
      rw [reclaimLoop_nil] at hrun
      cases hrun
      intro p hp1 hp2 hp3 hp4
      exact absurd (hA p hp1 hp2 hp3 hp4) (List.not_mem_nil p)
    | cons x xs =>
      by_cases hmem : chooseDeepest x xs ∈ removed
      · rw [reclaimLoop_skip hmem] at hrun
        refine ih _ _ _ _ _ _ _ ?_ hB hrun
        intro p hp1 hp2 hp3 hp4
        have hpd : p ≠ chooseDeepest x xs := by
          intro he
          rw [he, hB _ hmem] at hp3
          cases hp3
        exact (List.mem_erase_of_ne hpd).mpr (hA p hp1 hp2 hp3 hp4)
      · cases hc : isDirectoryEmptyF fs false cF (chooseDeepest x xs) with
        | none =>
          rw [reclaimLoop_diverged hmem hc] at hrun
          cases hrun
        | some bb =>
          cases bb
          · rw [reclaimLoop_notEmpty hmem hc] at hrun
            cases cF with
            | zero => simp [isDirectoryEmptyF] at hc
            | succ k =>
              rw [checkFalse_char] at hc
              have hfalse : emptyNowB fs (chooseDeepest x xs) = false := by
                cases h0 : emptyNowB fs (chooseDeepest x xs)
                · rfl
                · rw [h0] at hc
                  cases hc
              refine ih _ _ _ _ _ _ _ ?_ hB hrun
              intro p hp1 hp2 hp3 hp4
              have hpd : p ≠ chooseDeepest x xs := by
                intro he
                rw [← he, emptyNowB_true_of hp3 hp4] at hfalse
                cases hfalse
              exact (List.mem_erase_of_ne hpd).mpr (hA p hp1 hp2 hp3 hp4)
          · cases hrm : rmdirFS fs (chooseDeepest x xs) with
            | none =>
              rw [reclaimLoop_rmFail hmem hc hrm] at hrun
              refine ih _ _ _ _ _ _ _ ?_ hB hrun
              intro p hp1 hp2 hp3 hp4
              have hpd : p ≠ chooseDeepest x xs := by
                intro he
                rw [rmdirFS_of_empty (he ▸ hp3) (he ▸ hp4)] at hrm
                cases hrm
              exact (List.mem_erase_of_ne hpd).mpr (hA p hp1 hp2 hp3 hp4)
            | some fs2 =>
              rw [reclaimLoop_remove hmem hc hrm] at hrun
              obtain ⟨⟨bd, hld⟩, hcp, hfs2⟩ := rmdirFS_some hrm
              subst hfs2
              refine ih _ _ _ _ _ _ _ ?_ ?_ hrun
              · intro p hp1 hp2 hp3 hp4
                have hpd : p ≠ chooseDeepest x xs := by
                  intro he
                  rw [he, lookupFS_removeKey, if_pos rfl] at hp3
                  cases hp3
                have hlp : lookupFS fs p = some (.dir true) := by
                  rw [lookupFS_removeKey, if_neg hpd] at hp3
                  exact hp3
                rw [childPaths_removeKey] at hp4
                by_cases hdc : chooseDeepest x xs ∈ childPaths fs p
                · have hdrop : (chooseDeepest x xs).dropLast = p :=
                    (mem_childPaths_iff.mp hdc).2.1
                  have hcond1 : isDirR (removeKey fs (chooseDeepest x xs))
                      ((chooseDeepest x xs).dropLast) = true := by
                    rw [hdrop]
                    unfold isDirR
                    rw [resolve_self hp3]
                    simp [isRealDirB, hp3]
                  have hcond2 : (chooseDeepest x xs).dropLast
                      ∉ chooseDeepest x xs :: removed := by
                    rw [hdrop]
                    simp only [List.mem_cons, not_or]
                    refine ⟨hpd, ?_⟩
                    intro hpr
                    rw [hB _ hpr] at hlp
                    cases hlp
                  rw [enqueueParent, if_pos ⟨hcond1, hcond2⟩]
                  exact mem_insertTP.mpr (Or.inl hdrop.symm)
                · have hnil : childPaths fs p = [] := filter_ne_nil hp4 hdc
                  exact mem_enqueueParent_of_mem
                    ((List.mem_erase_of_ne hpd).mpr (hA p hp1 hp2 hlp hnil))
              · intro r hr
                rcases List.mem_cons.mp hr with rfl | hr0
                · rw [lookupFS_removeKey, if_pos rfl]
                · rw [lookupFS_removeKey]
                  split
                  · rfl
                  · exact hB _ hr0

theorem findEmptyDirs_inv {wF cF : Nat} {fs : FS} {root : Path} {follow : Bool}
    {l : List Path} (h : findEmptyDirs wF cF fs root follow = some l) :
    ∃ visited raw, walkB fs follow wF root = some visited ∧
      collectEmptyWith (isDirectoryEmptyF fs follow cF) root visited = some raw ∧
      l = sortByDepthDesc raw := by
  unfold findEmptyDirs at h
  cases hw : walkB fs follow wF root with
  | none => rw [hw] at h; cases h
  | some visited =>
    rw [hw] at h
    dsimp only at h
    cases hcol : collectEmptyWith (isDirectoryEmptyF fs follow cF) root visited with
    | none => rw [hcol] at h; cases h
    | some raw =>
      rw [hcol] at h
      dsimp only at h
      cases h
      exact ⟨visited, raw, rfl, hcol, rfl⟩

theorem childPaths_nil_of_emptyNowB {fs : FS} {p : Path}
    (hl : lookupFS fs p = some (.dir true)) (h : emptyNowB fs p = true) :
    childPaths fs p = [] := by
  simp only [emptyNowB, resolve_self hl, hl, decide_eq_true_eq] at h
  exact h

theorem visitedP_mono {fs1 fs0 : FS} (hsub : fsSub fs1 fs0) {root p : Path}
    (h : visitedP fs1 root p) : visitedP fs0 root p :=
  ⟨h.1, fun q hq1 hq2 => hsub q _ (h.2 q hq1 hq2)⟩

/-- The initial worklist of a default-policy run contains every empty readable
directory visited strictly below the root. -/
theorem initTP_complete {wF cF : Nat} {fs0 : FS} {root : Path} {cands : List Path}
    (h : findEmptyDirs wF cF fs0 root false = some cands) :
    ∀ p, p ≠ root → visitedP fs0 root p → lookupFS fs0 p = some (.dir true) →
      childPaths fs0 p = [] → p ∈ initTP cands := by
  obtain ⟨visited, raw, hw, hcol, hsort⟩ := findEmptyDirs_inv h
  intro p hp1 hp2 hp3 hp4
  have hpv : p ∈ visited := walkB_complete hw hp2
  rcases collectEmptyWith_mem_fwd hcol hpv hp1 with ⟨b, hb1, hb2⟩
  cases cF with
  | zero => simp [isDirectoryEmptyF] at hb1
  | succ k =>
    rw [checkFalse_char, emptyNowB_true_of hp3 hp4] at hb1
    cases hb1
    rw [hsort, mem_initTP, mem_sortByDepthDesc]
    exact hb2 rfl

/-- Conversely, every candidate of a default-policy scan is a visited,
currently empty readable directory other than the root. -/
theorem cands_sound {wF cF : Nat} {fs : FS} {root : Path} {cands : List Path}
    (h : findEmptyDirs wF cF fs root false = some cands) :
    ∀ p ∈ cands, p ≠ root ∧ visitedP fs root p ∧ lookupFS fs p = some (.dir true) ∧
      childPaths fs p = [] := by
  obtain ⟨visited, raw, hw, hcol, hsort⟩ := findEmptyDirs_inv h
  intro p hp
  rw [hsort, mem_sortByDepthDesc] at hp
  rcases collectEmptyWith_mem_rev hcol hp with ⟨hpv, hproot, hcheck⟩
  have hvis : visitedP fs root p := walkB_sound hw hpv
  have hlp : lookupFS fs p = some (.dir true) :=
    hvis.2 p hvis.1 (List.prefix_refl p)
  refine ⟨hproot, hvis, hlp, ?_⟩
  cases cF with
  | zero => simp [isDirectoryEmptyF] at hcheck
  | succ k =>
    rw [checkFalse_char] at hcheck
    have hemp : emptyNowB fs p = true := by
      cases h0 : emptyNowB fs p
      · rw [h0] at hcheck
        cases hcheck
      · rfl
    exact childPaths_nil_of_emptyNowB hlp hemp

/-! ## Claim theorems -/

/-- Claim C1, counterexample.  On the tree `/r` containing only the empty
directory `/r/a`, the scanner proposes `/r/a`; the real run then removes
`/r/a`, re-enqueues its parent `/r` — the scan root — re-checks it, finds it
empty, and removes it too: the final removed set contains the root and the
final filesystem is empty.  This refutes the claim that the root is never
added to the worklist or RemovedSet and never removed, and that the chain
reaction stops short of the root. -/
theorem C1_root_removed_counterexample :
    findEmptyDirs 10 5 fsRootA ["r"] false = some [["r","a"]] ∧
    reclaimLoop 5 false false 20 fsRootA (initTP [["r","a"]]) [] 0
      = .ok 2 [["r"], ["r","a"]] [] := by
  constructor
  · decide
  · decide

/-- Claim C1, amended: the scanner (`find_empty_dirs`) never lists the root
among the initial candidates — only strict descendants are collected; the
reclaimer's parent re-enqueuing, however, is not bounded by the root and can
remove it (see the counterexample). -/
theorem C1_scanner_excludes_root (wF cF : Nat) (fs : FS) (root : Path)
    (follow : Bool) (l : List Path)
    (h : findEmptyDirs wF cF fs root follow = some l) : root ∉ l := by
  obtain ⟨visited, raw, hw, hcol, hsort⟩ := findEmptyDirs_inv h
  rw [hsort, mem_sortByDepthDesc]
  intro hmem
  exact (collectEmptyWith_mem_rev hcol hmem).2.1 rfl

/-- Witness for the amended claim C1 at a concrete scan. -/
theorem C1_scanner_excludes_root_witness : (["r"] : Path) ∉ [(["r","a"] : Path)] :=
  C1_scanner_excludes_root 10 5 fsRootA ["r"] false [["r","a"]] (by decide)

/-- Claim C2 (code bug).  With `followSymlinks = true`, a directory whose only
entry is a symbolic link to a regular file is classified Empty by the code:
the entry falls through both branches of the loop (it is a symlink, and it
does not resolve to a directory) and is silently skipped, whereas the claim
requires immediate classification as NonEmpty. -/
theorem C2_symlink_to_nondir_ignored :
    lookupFS fsLinkToFile ["d","s"] = some (.symlink ["f"]) ∧
    lookupFS fsLinkToFile ["f"] = some .file ∧
    isDirectoryEmptyF fsLinkToFile true 2 ["d"] = some true := by
  refine ⟨rfl, rfl, by decide⟩

/-- Claim C3 (code bug).  On `/r` holding file `x` and chain `a/b` with `b`
empty: the real run removes two directories (`b`, then the newly emptied `a`),
but the dry run reports only one (`b`), because its re-check of `a` consults
the unmodified filesystem in which `b` still exists.  Dry run and real run
thus do not produce the same final removed set, contrary to the claim. -/
theorem C3_dry_run_misses_cascade :
    findEmptyDirs 10 5 fsChain ["r"] false = some [["r","a","b"]] ∧
    reclaimLoop 5 true false 20 fsChain (initTP [["r","a","b"]]) [] 0
      = .ok 1 [["r","a","b"]] fsChain ∧
    reclaimLoop 5 false false 20 fsChain (initTP [["r","a","b"]]) [] 0
      = .ok 2 [["r","a"], ["r","a","b"]] fsChainAfter := by
  refine ⟨by decide, by decide, by decide⟩

theorem fsLinkCycle_inner_diverges :
    ∀ fuel : Nat, isDirectoryEmptyF fsLinkCycle true fuel ["d","s"] = none := by
  intro fuel
  induction fuel with
  | zero => rfl
  | succ f ih =>
    have hstep : isDirectoryEmptyF fsLinkCycle true (f + 1) ["d","s"]
        = (match isDirectoryEmptyF fsLinkCycle true f ["d","s"] with
           | none => none
           | some true => some true
           | some false => some false) := rfl
    rw [hstep, ih]

/-- Claim C4 (code bug).  On a directory `/d` whose only entry is a symlink
back to `/d`, the recursive emptiness check with `followSymlinks = true`
diverges: for every recursion budget the embedded check runs out of fuel
(`none`), mirroring the unbounded recursion of the source, which has no
visited-set or depth bound and would exhaust the interpreter stack; the claim
requires termination with verdict NonEmpty. -/
theorem C4_cycle_check_diverges :
    ∀ fuel : Nat, isDirectoryEmptyF fsLinkCycle true fuel ["d"] = none := by
  intro fuel
  cases fuel with
  | zero => rfl
  | succ f =>
    have hstep : isDirectoryEmptyF fsLinkCycle true (f + 1) ["d"]
        = (match isDirectoryEmptyF fsLinkCycle true f ["d","s"] with
           | none => none
           | some true => some true
           | some false => some false) := rfl
    rw [hstep, fsLinkCycle_inner_diverges f]

/-- Claim C5.  In every completed run (any flags, any candidate list), a
directory that directly contains a regular file — for example one created
after the initial scan, while the directory sits stale in the candidate
list — is never recorded as removed: the mandatory re-check immediately
before removal cannot answer Empty on it.  The directory and its file are
still present in the final filesystem and the run completes normally. -/
theorem C5_reverified_nonempty_dir_survives (cF lF : Nat) (dry follow : Bool)
    (fs : FS) (cands : List Path) (p : Path) (n : String) (b : Bool) (c : Nat)
    (R : List Path) (fs1 : FS)
    (hdir : lookupFS fs p = some (.dir b))
    (hfile : lookupFS fs (p ++ [n]) = some .file)
    (hrun : reclaimLoop cF dry follow lF fs (initTP cands) [] 0 = .ok c R fs1) :
    p ∉ R ∧ lookupFS fs1 p = some (.dir b) ∧ lookupFS fs1 (p ++ [n]) = some .file :=
  reclaimLoop_file_preserved cF dry follow p n b lF fs (initTP cands) [] 0 c R fs1
    hdir hfile (List.not_mem_nil p) hrun

/-- Witness for claim C5: `/r/p` is a stale candidate but contains file `f`;
the run skips it without error and it survives. -/
theorem C5_witness :
    (["r","p"] : Path) ∉ ([] : List Path) ∧
    lookupFS fsWithFile ["r","p"] = some (.dir true) ∧
    lookupFS fsWithFile (["r","p"] ++ ["f"]) = some .file :=
  C5_reverified_nonempty_dir_survives 5 20 false false fsWithFile [["r","p"]]
    ["r","p"] "f" true 0 [] fsWithFile rfl rfl (by decide)

/-- Claim C6.  An unreadable directory (scandir raises PermissionError): its
emptiness check never answers Empty at any recursion budget, the scanner never
places it in the candidate list, and a completed run never records it as
removed — it survives unchanged in the final filesystem. -/
theorem C6_unreadable_conservative (fs : FS) (u root : Path) (follow dry : Bool)
    (fuel wF cF cF2 lF : Nat) (l tp : List Path) (c : Nat) (R : List Path) (fs1 : FS)
    (hu : lookupFS fs u = some (.dir false))
    (hl : findEmptyDirs wF cF fs root follow = some l)
    (hr : reclaimLoop cF2 dry follow lF fs tp [] 0 = .ok c R fs1) :
    isDirectoryEmptyF fs follow fuel u ≠ some true ∧ u ∉ l ∧ u ∉ R ∧
      lookupFS fs1 u = some (.dir false) := by
  have hpres := reclaimLoop_unreadable_preserved cF2 dry follow u lF fs tp [] 0 c R fs1
    hu (List.not_mem_nil u) hr
  refine ⟨check_ne_true_of_unreadable hu follow fuel, ?_, hpres.1, hpres.2⟩
  obtain ⟨visited, raw, hw, hcol, hsort⟩ := findEmptyDirs_inv hl
  rw [hsort, mem_sortByDepthDesc]
  intro hmem
  exact check_ne_true_of_unreadable hu follow cF (collectEmptyWith_mem_rev hcol hmem).2.2

/-- Witness for claim C6 on a concrete tree with unreadable `/r/u`. -/
theorem C6_witness :
    isDirectoryEmptyF fsUnreadable false 3 ["r","u"] ≠ some true ∧
    (["r","u"] : Path) ∉ ([] : List Path) ∧ (["r","u"] : Path) ∉ ([] : List Path) ∧
    lookupFS fsUnreadable ["r","u"] = some (.dir false) :=
  C6_unreadable_conservative fsUnreadable ["r","u"] ["r"] false false 3 10 5 5 20
    [] [] 0 [] fsUnreadable rfl (by decide) (by decide)

/-- Claim C7.  The worklist loop terminates on every input: with an empty
candidate set it halts at once returning the accumulated result, and with the
explicit fuel bound `loopBound cands` (worklist size plus twice the number of
candidate ancestors) the loop never exhausts its iteration budget — every
iteration pops an entry, and entries recorded in RemovedSet are never
processed again, so the loop cannot cycle. -/
theorem C7_worklist_terminates (cF : Nat) (dry follow : Bool) (fs : FS)
    (cands removed : List Path) (count : Nat) :
    (∀ f : Nat, reclaimLoop cF dry follow (f + 1) fs [] removed count
        = .ok count removed fs) ∧
    reclaimLoop cF dry follow (loopBound cands) fs (initTP cands) [] count
      ≠ .outOfFuel := by
  constructor
  · intro f
    exact reclaimLoop_nil cF dry follow f fs removed count
  · apply reclaimLoop_no_outOfFuel cF dry follow (prefixClosure (initTP cands))
    · intro p hp
      exact prefixClosure_dropLast hp
    · intro p hp
      exact mem_prefixClosure_of_mem hp
    · unfold loopBound
      simp only [List.toFinset_nil, Finset.sdiff_empty]
      omega

/-- Claim C8.  Running the scan-then-reclaim pipeline twice in a row (real
runs, default no-follow policy, no external mutation) removes nothing on the
second run: after the first completed run the tree contains no reachable
empty readable directory below the root, so the second scan yields no
candidates and the second removal count is zero. -/
theorem C8_second_run_removes_nothing (fs0 fs1 fs2 : FS) (root : Path)
    (wF1 cF1 lF1 wF2 cF2 lF2 : Nat) (cands1 cands2 R1 R2 : List Path) (c1 c2 : Nat)
    (h1 : findEmptyDirs wF1 cF1 fs0 root false = some cands1)
    (h2 : reclaimLoop cF1 false false lF1 fs0 (initTP cands1) [] 0 = .ok c1 R1 fs1)
    (h3 : findEmptyDirs wF2 cF2 fs1 root false = some cands2)
    (h4 : reclaimLoop cF2 false false lF2 fs1 (initTP cands2) [] 0 = .ok c2 R2 fs2) :
    c2 = 0 := by
  have hpost := reclaimLoop_post cF1 fs0 root lF1 fs0 (initTP cands1) [] 0 c1 R1 fs1
    (initTP_complete h1) (fun r hr => absurd hr (List.not_mem_nil r)) h2
  have hsub : fsSub fs1 fs0 := reclaimLoop_fsSub cF1 false false lF1 fs0 _ _ _ _ _ _ h2
  have hc2nil : cands2 = [] := by
    rw [List.eq_nil_iff_forall_not_mem]
    intro p hp
    rcases cands_sound h3 p hp with ⟨hproot, hvis, hlp, hcp⟩
    exact hpost p hproot (visitedP_mono hsub hvis) hlp hcp
  subst hc2nil
  cases lF2 with
  | zero => simp [reclaimLoop] at h4
  | succ g =>
    rw [show initTP [] = ([] : List Path) from rfl, reclaimLoop_nil] at h4
    cases h4
    rfl

/-- Witness for claim C8: on `/r` with empty child `/r/a`, the first run
removes `/r/a` and then `/r` itself; the second run scans the now-missing
root, finds nothing, and removes zero directories. -/
theorem C8_witness : (0 : Nat) = 0 :=
  C8_second_run_removes_nothing fsRootA [] [] ["r"] 10 5 20 10 5 20
    [["r","a"]] [] [["r"], ["r","a"]] [] 2 0
    (by decide) (by decide) (by decide) (by decide)

/-- Claim C9.  With `followSymlinks = false`, on a readable directory node the
check answers exactly the emptiness of its entry list: Empty iff there are
zero entries, and any entry — file, subdirectory or symbolic link, of any
content — yields NonEmpty; the verdict depends only on the presence of
entries, so symbolic links are never dereferenced. -/
theorem C9_nofollow_empty_iff_no_entries (fs : FS) (p : Path) (f : Nat)
    (h : lookupFS fs p = some (.dir true)) :
    isDirectoryEmptyF fs false (f + 1) p = some ((childPaths fs p).isEmpty) ∧
    (isDirectoryEmptyF fs false (f + 1) p = some true ↔ childPaths fs p = []) := by
  have hchar := checkFalse_char fs p f
  have hemp : emptyNowB fs p = (childPaths fs p).isEmpty := by
    simp only [emptyNowB, resolve_self h, h]
    cases childPaths fs p <;> simp
  constructor
  · rw [hchar, hemp]
  · rw [hchar, hemp]
    cases hc : childPaths fs p <;> simp

/-- Witness for claim C9 on the empty directory `/r/a`. -/
theorem C9_witness :
    isDirectoryEmptyF fsRootA false (0 + 1) ["r","a"]
      = some ((childPaths fsRootA ["r","a"]).isEmpty) ∧
    (isDirectoryEmptyF fsRootA false (0 + 1) ["r","a"] = some true
      ↔ childPaths fsRootA ["r","a"] = []) :=
  C9_nofollow_empty_iff_no_entries fsRootA ["r","a"] 0 rfl

/-- Claim C10.  Whatever the candidate list and flags, a completed run returns
a removal count equal to the cardinality of its duplicate-free removed set:
each path is recorded and counted exactly once, and a path already recorded is
never processed again. -/
theorem C10_count_equals_removed_card (cF lF : Nat) (dry follow : Bool) (fs : FS)
    (cands : List Path) (c : Nat) (R : List Path) (fs1 : FS)
    (hrun : reclaimLoop cF dry follow lF fs (initTP cands) [] 0 = .ok c R fs1) :
    c = R.length ∧ R.Nodup :=
  reclaimLoop_count_nodup cF dry follow lF fs (initTP cands) [] 0 c R fs1 rfl
    List.nodup_nil hrun

/-- Witness for claim C10 on the cascade run over `fsChain`. -/
theorem C10_witness :
    2 = ([["r","a"], ["r","a","b"]] : List Path).length ∧
    ([["r","a"], ["r","a","b"]] : List Path).Nodup :=
  C10_count_equals_removed_card 5 20 false false fsChain [["r","a","b"]] 2
    [["r","a"], ["r","a","b"]] fsChainAfter (by decide)

end EmptyBye
